import Mathlib

/-!
Verification of the Semeru memory-server concurrent marker
(`g1SemeruConcurrentMark.cpp/.inline.hpp`, `SemeruHeapRegionSet.cpp/.hpp`).

The C++ code is shallowly embedded: pointer-linked structures become Lean
lists (a doubly-linked list is represented by its head-to-tail node
sequence), machine words become `Nat`, stateful methods become explicit
state-passing functions, and the sequential execution guaranteed by the
source (`claim_region` contains `guarantee(false)` on its CAS-failure
branch, so CAS always succeeds) lets atomic operations be modelled as
plain updates.
-/

namespace Semeru

/-- A heap region as seen by the marker: dense index (`hrm_index`), bottom
address, end address and `next_top_at_mark_start` (NTAMS), all in heap
words. Links (`next`, `prev`, `mem_server_cset_next`) are represented by
the position of the region inside the containing Lean list. -/
structure SemeruHeapRegion where
  hrm_index : Nat
  bottom : Nat
  region_end : Nat
  ntams : Nat
  deriving DecidableEq, Repr

/-!
## FreeSemeruRegionList (SemeruHeapRegionSet.cpp)

The doubly-linked sorted list is embedded as the sequence of its nodes
from `_head` to `_tail`, together with the separately maintained `_length`
counter, the `_tail` pointer and the `_last` insertion hint, exactly the
fields the C++ class carries.
-/

/-- State of a `FreeSemeruRegionList`: node sequence from head to tail plus
the separately maintained `_length`, `_tail` and `_last` fields. -/
structure FreeSemeruRegionList where
  chain : List SemeruHeapRegion
  fl_length : Nat
  fl_tail : Option SemeruHeapRegion
  fl_last : Option SemeruHeapRegion
  deriving DecidableEq, Repr

/-- Well-formedness tying the C++ redundant fields to the node sequence:
`_length` counts the nodes and `_tail` is the last node. -/
def listWF (l : FreeSemeruRegionList) : Prop :=
  l.fl_length = l.chain.length ∧ l.fl_tail = l.chain.getLast?

/-- Strictly-ascending `hrm_index` order of a node sequence (the sort
invariant of `FreeSemeruRegionList`). -/
def chainSorted (c : List SemeruHeapRegion) : Prop :=
  c.Pairwise (fun a b => a.hrm_index < b.hrm_index)

instance (c : List SemeruHeapRegion) : Decidable (chainSorted c) := by
  unfold chainSorted; infer_instance

/-- The in-place splice loop of `FreeSemeruRegionList::add_ordered(from_list)`
(lines 146-173): advance `curr_to` while its index is below `curr_from`,
then either append the rest of the from-list at the tail (`curr_to == NULL`)
or link `curr_from` in front of `curr_to` and advance `curr_from`. On node
sequences this is exactly the simultaneous two-list merge below. -/
def mergeByIndex : List SemeruHeapRegion → List SemeruHeapRegion → List SemeruHeapRegion
  | [], fromL => fromL
  | toL, [] => toL
  | t :: ts, f :: fs =>
    if t.hrm_index < f.hrm_index then
      t :: mergeByIndex ts (f :: fs)
    else
      f :: mergeByIndex (t :: ts) fs
termination_by toL fromL => toL.length + fromL.length
decreasing_by
  all_goals simp_arith

/-- Iteration count of the merge walk: one unit per executed loop step of
the splice in `add_ordered` (each step advances `curr_to` or `curr_from`).
Used to express that the merge is one simultaneous walk, not repeated
insertion. -/
def mergeByIndexSteps : List SemeruHeapRegion → List SemeruHeapRegion → Nat
  | [], _ => 0
  | _, [] => 0
  | t :: ts, f :: fs =>
    if t.hrm_index < f.hrm_index then
      1 + mergeByIndexSteps ts (f :: fs)
    else
      1 + mergeByIndexSteps (t :: ts) fs
termination_by toL fromL => toL.length + fromL.length
decreasing_by
  all_goals simp_arith

/-- `FreeSemeruRegionList::clear()`: reset `_length`, `_head`, `_tail`,
`_last` (SemeruHeapRegionSet.cpp lines 272-277). -/
def clearList : FreeSemeruRegionList :=
  { chain := [], fl_length := 0, fl_tail := none, fl_last := none }

/-- `FreeSemeruRegionList::add_ordered(FreeSemeruRegionList* from_list)`
(SemeruHeapRegionSet.cpp lines 118-185). Returns the updated receiver and
the updated argument. Early return when `from_list->is_empty()` (that is,
its `_length` field is 0); if the receiver is empty it takes over the
from-list head and tail; otherwise the two chains are spliced by the merge
walk and `_tail` is updated to the larger-index of the two tails. Finally
`_length` grows by the from-list length and the from-list is cleared. -/
def add_ordered (toL fromL : FreeSemeruRegionList) :
    FreeSemeruRegionList × FreeSemeruRegionList :=
  if fromL.fl_length = 0 then
    (toL, fromL)
  else
    let newChain :=
      if toL.fl_length = 0 then fromL.chain else mergeByIndex toL.chain fromL.chain
    let newTail :=
      if toL.fl_length = 0 then fromL.fl_tail
      else
        match toL.fl_tail, fromL.fl_tail with
        | some t, some f => if t.hrm_index < f.hrm_index then some f else some t
        | _, _ => toL.fl_tail
    ({ chain := newChain
       fl_length := toL.fl_length + fromL.fl_length
       fl_tail := newTail
       fl_last := toL.fl_last },
     clearList)

/-!
## Region-claim cursor (G1SemeruConcurrentMark::claim_region, cpp 2158-2232)

The collection set is the singly-linked chain of regions reachable through
`mem_server_cset_next`; the atomic `_finger` points at the next region to
claim (NULL = exhausted). The chain is embedded as the list of regions not
yet claimed, so the finger value is the `bottom` of the list head (or none
when the chain is exhausted). The source guarantees the CAS on `_finger`
never fails in its sequential setting (`guarantee(false)` on the failure
branch), so a call is one loop iteration: read the candidate at the
finger, move the finger to the successor's bottom (none when the candidate
is last), then return the candidate exactly when its
`next_top_at_mark_start` lies strictly above its bottom. -/
def claim_region :
    List SemeruHeapRegion → Option SemeruHeapRegion × List SemeruHeapRegion
  | [] => (none, [])
  | r :: rest => if r.bottom < r.ntams then (some r, rest) else (none, rest)

/-- The observable value of the global `_finger`: the bottom of the next
region in the remaining collection-set chain, or none when exhausted. -/
def fingerVal (chain : List SemeruHeapRegion) : Option Nat :=
  chain.head?.map (·.bottom)

/-- Remaining collection-set chain after `n` calls of `claim_region`. -/
def claimAfter : Nat → List SemeruHeapRegion → List SemeruHeapRegion
  | 0, chain => chain
  | n + 1, chain => (claim_region (claimAfter n chain)).2

/-!
## Task-queue entries, objects and the marking task state

`G1SemeruTaskQueueEntry` is a tagged one-word value: an object reference
or an array-slice descriptor (the default constructor gives the null
entry). Objects are opaque records with an address, a size in words, a
primitive-array tag, a large-array tag and reference fields; the heap maps
addresses to objects.
-/

/-- A `G1SemeruTaskQueueEntry`: null, object reference, or array slice. -/
inductive GEntry where
  | nullE : GEntry
  | oopE : Nat → GEntry
  | sliceE : Nat → GEntry
  deriving DecidableEq, Repr

/-- An opaque Java object: start address, size in heap words, whether it is
a primitive-type array (`is_typeArray`), whether it is a large object
array that `G1CMObjArrayProcessor::should_be_sliced` would slice, and its
reference fields (each a possibly-null object address). -/
structure Obj where
  addr : Nat
  size : Nat
  typeArray : Bool
  sliced : Bool
  fields : List (Option Nat)
  deriving DecidableEq, Repr

/-- The heap: every address resolves to an object record. -/
def Heap := Nat → Obj

/-- Modelled from the spec: `EntriesPerChunk` of `G1SemeruCMMarkStack` is
declared in the class header, which is not part of the sources here; the
source comment at cpp line 2702 and the spec give 1024 - 1. -/
def EntriesPerChunk : Nat := 1023

/-- State of the chunked global mark stack `G1SemeruCMMarkStack`: the full
chunk list (each chunk a batch of `EntriesPerChunk` entries), the number
of chunks on the free list, the bump-allocator high-water mark and the
chunk capacity of the backing array. -/
structure GlobalStack where
  chunkList : List (List GEntry)
  freeChunks : Nat
  hwm : Nat
  chunkCap : Nat
  deriving DecidableEq, Repr

/-- `G1SemeruCMMarkStack::par_push_chunk` (cpp 206-224): take a chunk from
the free list, else allocate from backing memory by bumping `_hwm`
(failing when the high-water mark reached the chunk capacity), copy the
buffer into the chunk and link it onto the chunk list. -/
def par_push_chunk (g : GlobalStack) (buf : List GEntry) : Bool × GlobalStack :=
  if 0 < g.freeChunks then
    (true, { g with freeChunks := g.freeChunks - 1, chunkList := buf :: g.chunkList })
  else if g.chunkCap ≤ g.hwm then
    (false, g)
  else
    (true, { g with hwm := g.hwm + 1, chunkList := buf :: g.chunkList })

/-- Modelled from the spec: `words_scanned_period` is a constant of the
missing class header; only its positivity matters here. -/
def words_scanned_period : Nat := 12 * 1024

/-- Modelled from the spec: `refs_reached_period` is a constant of the
missing class header; only its positivity matters here. -/
def refs_reached_period : Nat := 1024

/-- Per-worker marking task state (`G1SemeruCMTask`): the current region
with its alive bitmap (the set of marked addresses), the local task queue
with its capacity, the global mark stack, the accumulated per-worker
live-word statistics, the abort flag and the clock counters. -/
structure MarkState where
  curr_region : SemeruHeapRegion
  alive_bitmap : List Nat
  liveness : Nat
  queue : List GEntry
  queueCap : Nat
  global : GlobalStack
  hasOverflown : Bool
  hasAborted : Bool
  wordsScanned : Nat
  wordsScannedLimit : Nat
  realWordsScannedLimit : Nat
  refsReached : Nat
  refsReachedLimit : Nat
  realRefsReachedLimit : Nat
  deriving DecidableEq, Repr

/-- Modelled from the spec: `G1CMBitMap::par_mark` (bitmap sources are not
part of src/) atomically sets the bit of an address and returns true
exactly when this caller flipped it from 0 to 1. The bitmap is the list of
already-marked addresses. -/
def par_mark (bm : List Nat) (addr : Nat) : Bool × List Nat :=
  if addr ∈ bm then (false, bm) else (true, addr :: bm)

/-- Modelled from the spec: `HeapRegion::obj_allocated_since_next_marking`
(region sources are not part of src/) holds for objects at or above NTAMS,
which are implicitly live and must not be marked. -/
def obj_allocated_since_next_marking (r : SemeruHeapRegion) (addr : Nat) : Bool :=
  decide (r.ntams ≤ addr)

/-- Modelled from the spec: `HeapRegion::is_in_reserved` (region sources
are not part of src/) tests containment in the region's address range. -/
def is_in_reserved (r : SemeruHeapRegion) (addr : Nat) : Bool :=
  decide (r.bottom ≤ addr ∧ addr < r.region_end)

/-- `G1SemeruCMTask::mark_in_alive_bitmap` (inline.hpp 421-449): refuse
objects allocated at or above the current region's NTAMS, otherwise
`par_mark` the object in the region's alive bitmap and, exactly on a
successful flip, add the object's size to the per-worker liveness
statistics (`add_to_liveness`). Returns the `par_mark` result. -/
def mark_in_alive_bitmap (st : MarkState) (o : Obj) : Bool × MarkState :=
  if obj_allocated_since_next_marking st.curr_region o.addr then
    (false, st)
  else
    let res := par_mark st.alive_bitmap o.addr
    let st1 := { st with alive_bitmap := res.2 }
    if res.1 then
      (true, { st1 with liveness := st1.liveness + o.size })
    else
      (false, st1)

/-- `GenericTaskQueue::push` on the local deque: succeeds, appending the
entry, exactly when the queue is below capacity. -/
def queue_push (st : MarkState) (e : GEntry) : Option MarkState :=
  if st.queue.length < st.queueCap then
    some { st with queue := e :: st.queue }
  else
    none

/-- `GenericTaskQueue::pop_local` on the local deque: pop the most recently
pushed entry, failing on an empty queue. -/
def pop_local (st : MarkState) : Option (GEntry × MarkState) :=
  match st.queue with
  | [] => none
  | e :: rest => some (e, { st with queue := rest })

/-- `G1SemeruCMTask::decrease_limits` (cpp 2650-2658): lower both soft
limits three-quarter-period below their real values so the clock fires
earlier after an expensive operation. -/
def decrease_limits (st : MarkState) : MarkState :=
  { st with
    wordsScannedLimit := st.realWordsScannedLimit - 3 * words_scanned_period / 4
    refsReachedLimit := st.realRefsReachedLimit - 3 * refs_reached_period / 4 }

/-- The stack-allocated transfer buffer built by
`move_entries_to_global_stack` (cpp 2699-2724) from the local queue.
Modelled from the spec for the entry type: `G1SemeruTaskQueueEntry` is
declared in the class header, which is not part of the sources here; its
user-provided default constructor produces the null entry (the spec calls
the unused slots zero-filled), so the array declaration
`G1SemeruTaskQueueEntry buffer[EntriesPerChunk]` at cpp 2702
default-initializes every slot to the null entry. The popped entries (up
to `EntriesPerChunk` of them, popped LIFO) then overwrite the leading
slots, and the write `buffer[n] = G1SemeruTaskQueueEntry()` at
cpp 2711-2713 re-writes the already-null slot `n`; every slot beyond the
popped prefix therefore holds the null entry. -/
def moveBuffer (q : List GEntry) : List GEntry :=
  let n := min EntriesPerChunk q.length
  q.take n ++ List.replicate (EntriesPerChunk - n) GEntry.nullE

/-- `G1SemeruCMTask::move_entries_to_global_stack` (cpp 2699-2724): pop up
to `EntriesPerChunk` entries from the local queue into the transfer
buffer, null-terminate it, and when at least one entry was popped push the
buffer as a chunk via `mark_stack_push` (the wrapper around
`par_push_chunk` that sets `_has_overflown` on failure, modelled from the
spec since the class header is not in src/), aborting the task when the
push fails. Finally lower the clock limits. -/
def move_entries_to_global_stack (st : MarkState) : MarkState :=
  let n := min EntriesPerChunk st.queue.length
  let st1 := { st with queue := st.queue.drop n }
  let st2 :=
    if 0 < n then
      let res := par_push_chunk st1.global (moveBuffer st.queue)
      if res.1 then
        { st1 with global := res.2 }
      else
        { st1 with global := res.2, hasOverflown := true, hasAborted := true }
    else
      st1
  decrease_limits st2

/-- `G1SemeruCMTask::push` (inline.hpp 223-243): push onto the local
queue; when the queue is full, move entries to the global stack and retry,
asserting that the retry succeeds. `none` models a failure of that
assertion. -/
def push (st : MarkState) (e : GEntry) : Option MarkState :=
  match queue_push st e with
  | some st' => some st'
  | none =>
    match queue_push (move_entries_to_global_stack st) e with
    | some st' => some st'
    | none => none

/-- `G1SemeruCMTask::make_reference_alive` (inline.hpp 470-501): mark the
object in the current region's alive bitmap; on a fresh mark, either do
only the bookkeeping for primitive-type arrays or push the object on the
local queue for field scanning. On an assertion failure inside `push` the
result is none. -/
def make_reference_alive (st : MarkState) (o : Obj) : Option (Bool × MarkState) :=
  let res := mark_in_alive_bitmap st o
  if res.1 = false then
    some (false, res.2)
  else
    if o.typeArray then
      some (true, res.2)
    else
      match push res.2 (GEntry.oopE o.addr) with
      | some st' => some (true, st')
      | none => none

/-- `G1SemeruCMTask::deal_with_reference` (inline.hpp 526-545): load the
referent; a null referent and a referent outside the current region are
skipped, anything else goes through `make_reference_alive`. -/
def deal_with_reference (H : Heap) (st : MarkState) (p : Option Nat) :
    Option (Bool × MarkState) :=
  match p with
  | none => some (false, st)
  | some a =>
    if is_in_reserved st.curr_region a then
      make_reference_alive st (H a)
    else
      some (false, st)

/-- Modelled from the spec: `GCDrainStackTargetSize` is a VM flag outside
these sources; it caps the partial-drain target. -/
def GCDrainStackTargetSize : Nat := 64

/-- Field iteration of one object (`oop_iterate` with the
`G1SemeruCMOopClosure`, which applies `deal_with_reference` to every
reference field). `none` propagates an assertion failure from `push`. -/
def oop_iterate_fields (H : Heap) : MarkState → List (Option Nat) → Option MarkState
  | st, [] => some st
  | st, f :: fs =>
    match deal_with_reference H st f with
    | some res => oop_iterate_fields H res.2 fs
    | none => none

/-- `G1SemeruCMTask::scan_task_entry` = `process_grey_task_entry<true>`
(inline.hpp 304-334): array slices and large arrays that should be sliced
hit debug-only `assert(false, "... Not finished yet")` statements and scan
nothing in a product build; a normal object has its fields iterated and
its size added to `_words_scanned`. -/
def scan_task_entry (H : Heap) (st : MarkState) (e : GEntry) : Option MarkState :=
  match e with
  | GEntry.nullE => some st
  | GEntry.sliceE _ => some st
  | GEntry.oopE a =>
    let o := H a
    if o.sliced then
      some st
    else
      match oop_iterate_fields H st o.fields with
      | some st' => some { st' with wordsScanned := st'.wordsScanned + o.size }
      | none => none

/-- The pop-and-scan loop of `drain_local_queue` (cpp 2773-2784): pop an
entry, scan it, and stop once the queue size reaches the target or the
task has aborted. Recursion is bounded by fuel; `none` means the loop did
not complete within the fuel (or an inner assertion failed). -/
def drainLoop (H : Heap) (target : Nat) : MarkState → Nat → Option MarkState
  | _, 0 => none
  | st, fuel + 1 =>
    match pop_local st with
    | none => some st
    | some (e, st1) =>
      match scan_task_entry H st1 e with
      | none => none
      | some st2 =>
        if st2.queue.length ≤ target ∨ st2.hasAborted = true then
          some st2
        else
          drainLoop H target st2 fuel

/-- `G1SemeruCMTask::drain_local_queue` (cpp 2758-2785): return at once
when aborted; otherwise drain the local queue down to the target size
(a third of capacity capped by `GCDrainStackTargetSize` for a partial
drain, zero for a total drain). -/
def drain_local_queue (H : Heap) (part : Bool) (st : MarkState) (fuel : Nat) :
    Option MarkState :=
  if st.hasAborted then
    some st
  else
    let target := if part then min (st.queueCap / 3) GCDrainStackTargetSize else 0
    if target < st.queue.length then
      drainLoop H target st fuel
    else
      some st

/-- The entry condition of `drain_global_stack` (cpp 2787-2794): the
function returns early when the task has aborted, and otherwise asserts
`partially || _semeru_task_queue->size() == 0`. This proposition holds
exactly when that assertion cannot fire. -/
def drain_global_entry_assert (part : Bool) (st : MarkState) : Prop :=
  st.hasAborted = true ∨ part = true ∨ st.queue.length = 0

/-!
## Clock (G1SemeruCMTask::regular_clock_call, cpp 2586-2640)

The external conditions the clock consults are collected in an
environment record.
-/

/-- External state read by `regular_clock_call`: the global concurrent-mark
flags, the suspendible-thread-set yield request, the elapsed virtual time
of this step and whether completed SATB buffers are pending. -/
structure ClockEnv where
  cmHasOverflown : Bool
  cmConcurrent : Bool
  cmHasAborted : Bool
  shouldYield : Bool
  elapsedTimeMs : Int
  satbCompletedBuffers : Bool
  deriving DecidableEq, Repr

/-- Clock-related per-task fields of `G1SemeruCMTask` not already in
`MarkState`: the timed-out flag, the SATB-draining flag and the soft time
target of the current step. -/
structure ClockState where
  task : MarkState
  hasTimedOut : Bool
  drainingSatbBuffers : Bool
  timeTargetMs : Int
  deriving DecidableEq, Repr

/-- `G1SemeruCMTask::recalculate_limits` (cpp 2642-2648). -/
def recalculate_limits (st : MarkState) : MarkState :=
  { st with
    realWordsScannedLimit := st.wordsScanned + words_scanned_period
    wordsScannedLimit := st.wordsScanned + words_scanned_period
    realRefsReachedLimit := st.refsReached + refs_reached_period
    refsReachedLimit := st.refsReached + refs_reached_period }

/-- `G1SemeruCMTask::regular_clock_call` (cpp 2586-2640): false means the
caller must abort the step. After an early false on an already-aborted
task, the limits are recomputed and the conditions are tested in source
order: global overflow; not concurrent (STW-only, return true); global
marking aborted; yield requested; time target exceeded (also sets the
timed-out flag); completed SATB buffers pending while not draining them. -/
def regular_clock_call (env : ClockEnv) (cs : ClockState) : Bool × ClockState :=
  if cs.task.hasAborted then
    (false, cs)
  else
    let cs1 := { cs with task := recalculate_limits cs.task }
    if env.cmHasOverflown then
      (false, cs1)
    else if env.cmConcurrent = false then
      (true, cs1)
    else if env.cmHasAborted then
      (false, cs1)
    else if env.shouldYield then
      (false, cs1)
    else if cs1.timeTargetMs < env.elapsedTimeMs then
      (false, { cs1 with hasTimedOut := true })
    else if cs1.drainingSatbBuffers = false ∧ env.satbCompletedBuffers = true then
      (false, cs1)
    else
      (true, cs1)

/-!
## Epilogue of do_semeru_marking_step (cpp 3594-3744)

After the region loop, the source totally drains the local queue and the
global stack and then proceeds directly to closing bookkeeping: the
work-stealing loop and the termination protocol present in the original
G1 `do_marking_step` are commented out in `do_semeru_marking_step`
(cpp 3604-3626 and 3633-3670 are comments). The control flow from the
total drain to the end of the function is embedded as the sequence of
operations it performs.
-/

/-- One observable operation of the epilogue of `do_semeru_marking_step`. -/
inductive StepEvent where
  | drainLocal : Bool → StepEvent
  | drainGlobal : Bool → StepEvent
  | stealAttempt : StepEvent
  | offerTermination : StepEvent
  | clearCmOopClosure : StepEvent
  | recordTimedOutDiff : StepEvent
  | enterFirstBarrier : StepEvent
  | clearRegionFields : StepEvent
  | flushMarkStatsCache : StepEvent
  | resetMarkingForRestart : StepEvent
  | enterSecondBarrier : StepEvent
  deriving DecidableEq, Repr

/-- The operations `do_semeru_marking_step` performs from the total drain
(cpp 3596-3597) to the end of the function (cpp 3744), in order, given the
call flags and the state at that point: total drain of local queue then
global stack; no stealing and no termination offer (both blocks are
commented out); clear the oop closure; on a timed-out abort record the
timing diff; on an overflow abort run the two-barrier protocol, with
worker 0 resetting the global marking state in the concurrent phase. -/
def markingStepEpilogue (_do_termination is_serial : Bool)
    (aborted timed_out overflown concurrent : Bool) (worker_id : Nat) :
    List StepEvent :=
  [StepEvent.drainLocal false, StepEvent.drainGlobal false,
   StepEvent.clearCmOopClosure] ++
  (if aborted then
    (if timed_out then [StepEvent.recordTimedOutDiff] else []) ++
    (if overflown then
      (if is_serial = false then [StepEvent.enterFirstBarrier] else []) ++
      [StepEvent.clearRegionFields, StepEvent.flushMarkStatsCache] ++
      (if is_serial = false then
        (if concurrent ∧ worker_id = 0 then [StepEvent.resetMarkingForRestart] else []) ++
        [StepEvent.enterSecondBarrier]
      else
        [])
    else
      [])
  else
    [])

/-!
## Lemmas about the merge walk
-/

theorem mergeByIndex_length (L M : List SemeruHeapRegion) :
    (mergeByIndex L M).length = L.length + M.length := by
  induction L, M using mergeByIndex.induct with
  | case1 M => simp [mergeByIndex]
  | case2 L h => cases L <;> simp_all [mergeByIndex]
  | case3 t ts f fs hlt ih => simp [mergeByIndex, hlt, ih]; omega
  | case4 t ts f fs hlt ih => simp [mergeByIndex, hlt, ih]; omega

theorem mergeByIndex_perm (L M : List SemeruHeapRegion) :
    (mergeByIndex L M).Perm (L ++ M) := by
  induction L, M using mergeByIndex.induct with
  | case1 M => simp [mergeByIndex]
  | case2 L h => cases L <;> simp_all [mergeByIndex]
  | case3 t ts f fs hlt ih =>
    simpa [mergeByIndex, hlt] using ih.cons t
  | case4 t ts f fs hlt ih =>
    simp only [mergeByIndex, hlt, if_false]
    exact ((ih.cons f).trans
      (List.perm_middle.symm :
        List.Perm (f :: (t :: ts ++ fs)) ((t :: ts) ++ f :: fs)))

theorem mem_mergeByIndex {a : SemeruHeapRegion} {L M : List SemeruHeapRegion} :
    a ∈ mergeByIndex L M ↔ a ∈ L ∨ a ∈ M := by
  rw [(mergeByIndex_perm L M).mem_iff, List.mem_append]

theorem mergeByIndex_sorted {L M : List SemeruHeapRegion}
    (hL : chainSorted L) (hM : chainSorted M)
    (hd : ∀ a ∈ L, ∀ b ∈ M, a.hrm_index ≠ b.hrm_index) :
    chainSorted (mergeByIndex L M) := by
  induction L, M using mergeByIndex.induct with
  | case1 M => simpa [mergeByIndex] using hM
  | case2 L h => cases L <;> simp_all [mergeByIndex]
  | case3 t ts f fs hlt ih =>
    rw [chainSorted, List.pairwise_cons] at hL
    simp only [mergeByIndex, hlt, if_true]
    rw [chainSorted, List.pairwise_cons]
    refine ⟨?_, ih hL.2 hM (fun a ha b hb => hd a (List.mem_cons_of_mem t ha) b hb)⟩
    intro b hb
    rcases mem_mergeByIndex.mp hb with h1 | h1
    · exact hL.1 b h1
    · rcases List.mem_cons.mp h1 with rfl | h2
      · exact hlt
      · rw [chainSorted, List.pairwise_cons] at hM
        exact lt_trans hlt (hM.1 b h2)
  | case4 t ts f fs hlt ih =>
    rw [chainSorted, List.pairwise_cons] at hM
    have hft : f.hrm_index < t.hrm_index := by
      have := hd t (List.mem_cons_self _ _) f (List.mem_cons_self _ _)
      omega
    simp only [mergeByIndex, hlt, if_false]
    rw [chainSorted, List.pairwise_cons]
    refine ⟨?_, ih hL hM.2 (fun a ha b hb => hd a ha b (List.mem_cons_of_mem f hb))⟩
    intro b hb
    rcases mem_mergeByIndex.mp hb with h1 | h1
    · rcases List.mem_cons.mp h1 with rfl | h2
      · exact hft
      · rw [chainSorted, List.pairwise_cons] at hL
        exact lt_trans hft (hL.1 b h2)
    · exact hM.1 b h1

theorem mergeByIndexSteps_le (L M : List SemeruHeapRegion) :
    mergeByIndexSteps L M ≤ L.length + M.length := by
  induction L, M using mergeByIndexSteps.induct with
  | case1 M => simp [mergeByIndexSteps]
  | case2 L h => cases L <;> simp [mergeByIndexSteps]
  | case3 t ts f fs hlt ih =>
    simp only [mergeByIndexSteps, hlt, if_true]
    simp only [List.length_cons] at ih ⊢
    omega
  | case4 t ts f fs hlt ih =>
    simp only [mergeByIndexSteps, hlt, if_false]
    simp only [List.length_cons] at ih ⊢
    omega

theorem chainSorted_last_max {c : List SemeruHeapRegion} (hs : chainSorted c)
    {t : SemeruHeapRegion} (ht : c.getLast? = some t) :
    ∀ x ∈ c, x.hrm_index ≤ t.hrm_index := by
  induction c with
  | nil => simp at ht
  | cons a l ih =>
    rw [chainSorted, List.pairwise_cons] at hs
    intro x hx
    cases l with
    | nil =>
      simp at ht hx
      subst ht; subst hx; exact le_refl _
    | cons b l' =>
      rw [List.getLast?_cons_cons] at ht
      rcases List.mem_cons.mp hx with rfl | h2
      · have hbt : b.hrm_index ≤ t.hrm_index := by
          have := ih hs.2 ht
          exact this b (List.mem_cons_self _ _)
        exact le_of_lt (lt_of_lt_of_le (hs.1 b (List.mem_cons_self _ _)) hbt)
      · exact ih hs.2 ht x h2

theorem chainSorted_getLast?_eq {c : List SemeruHeapRegion} (hs : chainSorted c)
    {t : SemeruHeapRegion} (htmem : t ∈ c)
    (hmax : ∀ x ∈ c, x.hrm_index ≤ t.hrm_index) :
    c.getLast? = some t := by
  induction c with
  | nil => simp at htmem
  | cons a l ih =>
    rw [chainSorted, List.pairwise_cons] at hs
    cases l with
    | nil =>
      simp at htmem; subst htmem; simp
    | cons b l' =>
      rw [List.getLast?_cons_cons]
      rcases List.mem_cons.mp htmem with rfl | h2
      · exfalso
        have := hmax b (List.mem_cons_of_mem t (List.mem_cons_self _ _))
        have := hs.1 b (List.mem_cons_self _ _)
        omega
      · exact ih hs.2 h2 (fun x hx => hmax x (List.mem_cons_of_mem a hx))

theorem chainGetLast_mem {c : List SemeruHeapRegion} {t : SemeruHeapRegion}
    (h : c.getLast? = some t) : t ∈ c := by
  rcases List.mem_getLast?_eq_getLast h with ⟨hne, rfl⟩
  exact List.getLast_mem hne

/-- C8: under the list invariants (`_length` and `_tail` consistent with
the node chain, both chains strictly sorted by `hrm_index`, index sets
disjoint), `add_ordered` of a from-list into a receiver produces a
receiver holding exactly the nodes of both lists, with length the sum of
both lengths, in strictly ascending index order, with `_tail` equal to
the final (maximum-index) node; the from-list ends up empty; and the
splice is a single simultaneous walk whose step count is bounded by the
sum of the lengths, not a repeated-insertion scan. -/
theorem add_ordered_merges_sorted_disjoint_lists
    (L M : FreeSemeruRegionList)
    (hLwf : listWF L) (hMwf : listWF M)
    (hLs : chainSorted L.chain) (hMs : chainSorted M.chain)
    (hdisj : ∀ a ∈ L.chain, ∀ b ∈ M.chain, a.hrm_index ≠ b.hrm_index) :
    (add_ordered L M).1.fl_length = L.fl_length + M.fl_length ∧
    (add_ordered L M).1.chain.length = L.chain.length + M.chain.length ∧
    (add_ordered L M).1.chain.Perm (L.chain ++ M.chain) ∧
    chainSorted (add_ordered L M).1.chain ∧
    (add_ordered L M).2.chain = [] ∧ (add_ordered L M).2.fl_length = 0 ∧
    (add_ordered L M).1.fl_tail = (add_ordered L M).1.chain.getLast? ∧
    (∀ r ∈ (add_ordered L M).1.chain, ∀ u,
      (add_ordered L M).1.fl_tail = some u → r.hrm_index ≤ u.hrm_index) ∧
    mergeByIndexSteps L.chain M.chain ≤ L.chain.length + M.chain.length := by
  obtain ⟨hLlen, hLtail⟩ := hLwf
  obtain ⟨hMlen, hMtail⟩ := hMwf
  by_cases hMe : M.fl_length = 0
  · have hMc : M.chain = [] := by
      rw [hMe] at hMlen; exact (List.length_eq_zero.mp hMlen.symm)
    have heq : add_ordered L M = (L, M) := by simp [add_ordered, hMe]
    rw [heq]
    refine ⟨by show L.fl_length = L.fl_length + M.fl_length; omega,
      by rw [hMc]; simp, by rw [hMc]; simp, hLs, hMc, hMe, hLtail, ?_,
      mergeByIndexSteps_le L.chain M.chain⟩
    intro r hr u hu
    exact chainSorted_last_max hLs (hLtail ▸ hu) r hr
  · have hMc : M.chain ≠ [] := by
      intro h; rw [h] at hMlen; simp at hMlen; exact hMe hMlen
    by_cases hLe : L.fl_length = 0
    · have hLc : L.chain = [] := by
        rw [hLe] at hLlen; exact (List.length_eq_zero.mp hLlen.symm)
      have heq : add_ordered L M =
          ({ chain := M.chain, fl_length := L.fl_length + M.fl_length,
             fl_tail := M.fl_tail, fl_last := L.fl_last }, clearList) := by
        simp [add_ordered, hMe, hLe]
      rw [heq]
      refine ⟨rfl, by rw [hLc]; simp, by rw [hLc]; simp, hMs, rfl, rfl, hMtail, ?_,
        mergeByIndexSteps_le L.chain M.chain⟩
      intro r hr u hu
      exact chainSorted_last_max hMs (hMtail ▸ hu) r hr
    · have hLc : L.chain ≠ [] := by
        intro h; rw [h] at hLlen; simp at hLlen; exact hLe hLlen
      obtain ⟨tL, htL⟩ : ∃ u, L.fl_tail = some u := by
        rw [hLtail, List.getLast?_eq_getLast_of_ne_nil hLc]; exact ⟨_, rfl⟩
      obtain ⟨tM, htM⟩ : ∃ u, M.fl_tail = some u := by
        rw [hMtail, List.getLast?_eq_getLast_of_ne_nil hMc]; exact ⟨_, rfl⟩
      have hmergeS : chainSorted (mergeByIndex L.chain M.chain) :=
        mergeByIndex_sorted hLs hMs hdisj
      have hperm := mergeByIndex_perm L.chain M.chain
      have htLmem : tL ∈ L.chain := chainGetLast_mem (hLtail ▸ htL)
      have htMmem : tM ∈ M.chain := chainGetLast_mem (hMtail ▸ htM)
      have hmaxL : ∀ x ∈ L.chain, x.hrm_index ≤ tL.hrm_index :=
        chainSorted_last_max hLs (hLtail ▸ htL)
      have hmaxM : ∀ x ∈ M.chain, x.hrm_index ≤ tM.hrm_index :=
        chainSorted_last_max hMs (hMtail ▸ htM)
      have hcand : ∀ cand, cand = (if tL.hrm_index < tM.hrm_index then tM else tL) →
          (mergeByIndex L.chain M.chain).getLast? = some cand := by
        intro cand hcd
        apply chainSorted_getLast?_eq hmergeS
        · rw [mem_mergeByIndex, hcd]
          split
          · exact Or.inr htMmem
          · exact Or.inl htLmem
        · intro x hx
          rcases mem_mergeByIndex.mp hx with h1 | h1
          · have := hmaxL x h1
            rw [hcd]; split <;> omega
          · have := hmaxM x h1
            rw [hcd]; split <;> omega
      have heq : add_ordered L M =
          ({ chain := mergeByIndex L.chain M.chain
             fl_length := L.fl_length + M.fl_length
             fl_tail := if tL.hrm_index < tM.hrm_index then some tM else some tL
             fl_last := L.fl_last }, clearList) := by
        simp [add_ordered, hMe, hLe, htL, htM]
      rw [heq]
      refine ⟨rfl, mergeByIndex_length L.chain M.chain, hperm, hmergeS, rfl, rfl, ?_, ?_,
        mergeByIndexSteps_le L.chain M.chain⟩
      · by_cases hc : tL.hrm_index < tM.hrm_index
        · simp only [hc, if_true]
          exact (hcand tM (by simp [hc])).symm
        · simp only [hc, if_false]
          exact (hcand tL (by simp [hc])).symm
      · intro r hr u hu
        have hglast : (mergeByIndex L.chain M.chain).getLast? = some u := by
          by_cases hc : tL.hrm_index < tM.hrm_index
          · simp only [hc, if_true] at hu
            exact hu ▸ hcand tM (by simp [hc])
          · simp only [hc, if_false] at hu
            exact hu ▸ hcand tL (by simp [hc])
        exact chainSorted_last_max hmergeS hglast r hr

/-- Concrete lists realizing the spec's ordered-merge scenario: receiver
with indices 2, 5, 9 and from-list with indices 1, 7, 10. -/
def mergeDemoL : FreeSemeruRegionList :=
  { chain := [⟨2, 20, 30, 30⟩, ⟨5, 50, 60, 60⟩, ⟨9, 90, 100, 100⟩]
    fl_length := 3
    fl_tail := some ⟨9, 90, 100, 100⟩
    fl_last := none }

/-- From-list of the ordered-merge scenario. -/
def mergeDemoM : FreeSemeruRegionList :=
  { chain := [⟨1, 10, 20, 20⟩, ⟨7, 70, 80, 80⟩, ⟨10, 100, 110, 110⟩]
    fl_length := 3
    fl_tail := some ⟨10, 100, 110, 110⟩
    fl_last := none }

/-- Witness for C8 at the concrete scenario: all hypotheses hold and the
merged receiver has the six nodes in order with tail at index 10. -/
theorem add_ordered_merges_sorted_disjoint_lists_witness :
    (listWF mergeDemoL ∧ listWF mergeDemoM ∧ chainSorted mergeDemoL.chain ∧
      chainSorted mergeDemoM.chain ∧
      (∀ a ∈ mergeDemoL.chain, ∀ b ∈ mergeDemoM.chain, a.hrm_index ≠ b.hrm_index)) ∧
    ((add_ordered mergeDemoL mergeDemoM).1.fl_length =
        mergeDemoL.fl_length + mergeDemoM.fl_length ∧
      (add_ordered mergeDemoL mergeDemoM).1.chain.length =
        mergeDemoL.chain.length + mergeDemoM.chain.length ∧
      (add_ordered mergeDemoL mergeDemoM).1.chain.Perm
        (mergeDemoL.chain ++ mergeDemoM.chain) ∧
      chainSorted (add_ordered mergeDemoL mergeDemoM).1.chain ∧
      (add_ordered mergeDemoL mergeDemoM).2.chain = [] ∧
      (add_ordered mergeDemoL mergeDemoM).2.fl_length = 0 ∧
      (add_ordered mergeDemoL mergeDemoM).1.fl_tail =
        (add_ordered mergeDemoL mergeDemoM).1.chain.getLast? ∧
      (∀ r ∈ (add_ordered mergeDemoL mergeDemoM).1.chain, ∀ u,
        (add_ordered mergeDemoL mergeDemoM).1.fl_tail = some u →
          r.hrm_index ≤ u.hrm_index) ∧
      mergeByIndexSteps mergeDemoL.chain mergeDemoM.chain ≤
        mergeDemoL.chain.length + mergeDemoM.chain.length) :=
  ⟨⟨by constructor <;> decide, by constructor <;> decide, by decide, by decide, by decide⟩,
    add_ordered_merges_sorted_disjoint_lists mergeDemoL mergeDemoM
      ⟨by decide, by decide⟩ ⟨by decide, by decide⟩ (by decide) (by decide) (by decide)⟩

/-- C10: `add_ordered` with an empty from-list returns before any pointer
or length manipulation, leaving both lists untouched. -/
theorem add_ordered_empty_from_list_noop (L M : FreeSemeruRegionList)
    (h : M.fl_length = 0) : add_ordered L M = (L, M) := by
  simp [add_ordered, h]

/-- Witness for C10: a concrete non-trivial receiver and a concrete empty
from-list (with a stale `_last` hint, which must also stay untouched). -/
theorem add_ordered_empty_from_list_noop_witness :
    ({ chain := [], fl_length := 0, fl_tail := none,
       fl_last := some ⟨3, 30, 40, 40⟩ } : FreeSemeruRegionList).fl_length = 0 ∧
    add_ordered mergeDemoL
      { chain := [], fl_length := 0, fl_tail := none, fl_last := some ⟨3, 30, 40, 40⟩ } =
      (mergeDemoL,
       { chain := [], fl_length := 0, fl_tail := none, fl_last := some ⟨3, 30, 40, 40⟩ }) :=
  ⟨rfl, add_ordered_empty_from_list_noop _ _ rfl⟩

/-- C2: `claim_region` on an exhausted cursor returns nothing without
moving the finger; otherwise the finger moves to the chain successor's
bottom (or becomes exhausted when the claimed region was last), and the
claimed region is returned exactly when its NTAMS is strictly above its
bottom, with an empty region (NTAMS equal to bottom) yielding nothing so
the caller retries. -/
theorem claim_region_cas_and_empty_region_retry
    (r : SemeruHeapRegion) (rest : List SemeruHeapRegion) :
    claim_region ([] : List SemeruHeapRegion) = (none, []) ∧
    fingerVal (claim_region (r :: rest)).2 = rest.head?.map (·.bottom) ∧
    ((claim_region (r :: rest)).1 = some r ↔ r.bottom < r.ntams) ∧
    (r.ntams = r.bottom → (claim_region (r :: rest)).1 = none) := by
  have hred : claim_region (r :: rest) =
      if r.bottom < r.ntams then (some r, rest) else (none, rest) := rfl
  refine ⟨rfl, ?_, ?_, ?_⟩
  · rw [hred]
    by_cases hc : r.bottom < r.ntams <;> simp [hc, fingerVal]
  · rw [hred]
    by_cases hc : r.bottom < r.ntams <;> simp [hc]
  · intro h
    rw [hred]
    have hc : ¬ r.bottom < r.ntams := by omega
    simp [hc]

/-- Witness for C2: a one-region chain whose region is empty (NTAMS equal
to bottom) is claimed but yields nothing, and the finger is exhausted. -/
theorem claim_region_cas_and_empty_region_retry_witness :
    ((⟨4, 40, 50, 40⟩ : SemeruHeapRegion).ntams =
      (⟨4, 40, 50, 40⟩ : SemeruHeapRegion).bottom) ∧
    (claim_region [⟨4, 40, 50, 40⟩]).1 = none :=
  ⟨rfl, (claim_region_cas_and_empty_region_retry ⟨4, 40, 50, 40⟩ []).2.2.2 rfl⟩

/-- A memory-server collection-set chain whose successor region sits at a
lower address than its predecessor, which the source explicitly allows
("The Regions in memory server CSet may come from any region",
cpp 2165). -/
def backwardChain : List SemeruHeapRegion :=
  [⟨9, 100, 150, 150⟩, ⟨1, 0, 50, 50⟩]

/-- Counterexample to C3 as stated: on a chain whose next region sits at a
lower address, a successful claim moves the observed finger from address
100 down to address 0, so the observed finger values do go backward. -/
theorem claim_region_finger_goes_backward :
    fingerVal backwardChain = some 100 ∧
    ((claim_region backwardChain).1).isSome = true ∧
    fingerVal (claim_region backwardChain).2 = some 0 ∧
    (0 : Nat) < 100 := by
  decide

/-- C3 amended: the cursor is monotone with respect to chain position, not
with respect to numeric addresses: after `n` calls the remaining chain is
exactly the original chain with its first `n` regions dropped, and while
the chain is not exhausted every call strictly shrinks it, so no region is
ever revisited; the numeric finger value may decrease when the chain is
not address-ordered. -/
theorem claim_region_advances_along_chain
    (chain : List SemeruHeapRegion) (n : Nat) :
    claimAfter n chain = chain.drop n ∧
    (n < chain.length →
      (claimAfter (n + 1) chain).length < (claimAfter n chain).length) := by
  have hstep : ∀ l : List SemeruHeapRegion, (claim_region l).2 = l.drop 1 := by
    intro l
    cases l with
    | nil => rfl
    | cons r rest =>
      show (if r.bottom < r.ntams then ((some r : Option SemeruHeapRegion), rest)
        else (none, rest)).2 = _
      by_cases hc : r.bottom < r.ntams <;> simp [hc]
  have hdrop : ∀ m : Nat, claimAfter m chain = chain.drop m := by
    intro m
    induction m with
    | zero => rfl
    | succ k ih =>
      show (claim_region (claimAfter k chain)).2 = _
      rw [ih, hstep, List.drop_drop]
  refine ⟨hdrop n, ?_⟩
  intro hn
  rw [hdrop n, hdrop (n + 1)]
  simp only [List.length_drop]
  omega

/-- Witness for C3 amended, on the concrete backward chain: the first call
consumes exactly the head region and strictly shrinks the chain. -/
theorem claim_region_advances_along_chain_witness :
    claimAfter 0 backwardChain = backwardChain.drop 0 ∧
    (claimAfter 1 backwardChain).length < (claimAfter 0 backwardChain).length :=
  ⟨(claim_region_advances_along_chain backwardChain 0).1,
   (claim_region_advances_along_chain backwardChain 0).2 (by decide)⟩

/-- Counterexample to C4 as stated: in a non-serial invocation with
termination enabled that has totally drained without aborting, the
epilogue of `do_semeru_marking_step` performs no steal and no termination
offer — both blocks are commented out in the source. -/
theorem marking_step_does_not_steal_or_terminate_cex :
    StepEvent.stealAttempt ∉ markingStepEpilogue true false false false false true 0 ∧
    StepEvent.offerTermination ∉ markingStepEpilogue true false false false false true 0 := by
  decide

/-- C4 amended: after the total drain of the local queue and then the
global stack, `do_semeru_marking_step` never attempts stealing and never
participates in the termination protocol, for every combination of call
flags and abort state; it proceeds directly to closing bookkeeping. -/
theorem marking_step_epilogue_never_steals_or_terminates
    (dt is_ser aborted timed_out overflown concurrent : Bool) (worker_id : Nat) :
    StepEvent.stealAttempt ∉
      markingStepEpilogue dt is_ser aborted timed_out overflown concurrent worker_id ∧
    StepEvent.offerTermination ∉
      markingStepEpilogue dt is_ser aborted timed_out overflown concurrent worker_id ∧
    (markingStepEpilogue dt is_ser aborted timed_out overflown concurrent worker_id).take 2 =
      [StepEvent.drainLocal false, StepEvent.drainGlobal false] := by
  unfold markingStepEpilogue
  refine ⟨?_, ?_, rfl⟩ <;>
    (split_ifs <;> simp)

/-- C6: on a task that has not already aborted, `regular_clock_call`
recomputes both scan limits and then evaluates its conditions in source
order — global overflow aborts; a non-concurrent (STW-only) phase returns
true immediately; then global marking abort, a yield request, exceeding
the time target (which additionally sets the timed-out flag), and pending
completed SATB buffers while not draining them each abort; otherwise the
call returns true without touching the timed-out flag. -/
theorem regular_clock_call_checks_in_order (env : ClockEnv) (cs : ClockState)
    (h : cs.task.hasAborted = false) :
    ((regular_clock_call env cs).2.task.wordsScannedLimit =
      cs.task.wordsScanned + words_scanned_period ∧
     (regular_clock_call env cs).2.task.realWordsScannedLimit =
      cs.task.wordsScanned + words_scanned_period ∧
     (regular_clock_call env cs).2.task.refsReachedLimit =
      cs.task.refsReached + refs_reached_period ∧
     (regular_clock_call env cs).2.task.realRefsReachedLimit =
      cs.task.refsReached + refs_reached_period) ∧
    (env.cmHasOverflown = true → (regular_clock_call env cs).1 = false) ∧
    (env.cmHasOverflown = false → env.cmConcurrent = false →
      (regular_clock_call env cs).1 = true) ∧
    (env.cmHasOverflown = false → env.cmConcurrent = true →
      env.cmHasAborted = true → (regular_clock_call env cs).1 = false) ∧
    (env.cmHasOverflown = false → env.cmConcurrent = true →
      env.cmHasAborted = false → env.shouldYield = true →
      (regular_clock_call env cs).1 = false) ∧
    (env.cmHasOverflown = false → env.cmConcurrent = true →
      env.cmHasAborted = false → env.shouldYield = false →
      cs.timeTargetMs < env.elapsedTimeMs →
      (regular_clock_call env cs).1 = false ∧
      (regular_clock_call env cs).2.hasTimedOut = true) ∧
    (env.cmHasOverflown = false → env.cmConcurrent = true →
      env.cmHasAborted = false → env.shouldYield = false →
      ¬ cs.timeTargetMs < env.elapsedTimeMs →
      cs.drainingSatbBuffers = false → env.satbCompletedBuffers = true →
      (regular_clock_call env cs).1 = false) ∧
    (env.cmHasOverflown = false → env.cmConcurrent = true →
      env.cmHasAborted = false → env.shouldYield = false →
      ¬ cs.timeTargetMs < env.elapsedTimeMs →
      ¬ (cs.drainingSatbBuffers = false ∧ env.satbCompletedBuffers = true) →
      (regular_clock_call env cs).1 = true ∧
      (regular_clock_call env cs).2.hasTimedOut = cs.hasTimedOut) := by
  refine ⟨?_, ?_, ?_, ?_, ?_, ?_, ?_, ?_⟩
  · unfold regular_clock_call
    simp only [h, Bool.false_eq_true, if_false]
    split_ifs <;> simp [recalculate_limits]
  all_goals intros
  all_goals simp_all [regular_clock_call, h]
  all_goals split_ifs <;> simp_all <;> try omega

/-- Witness for C6: a concrete state in which every earlier condition is
clear but completed SATB buffers are pending while the task is not
draining them, so the clock call aborts. -/
theorem regular_clock_call_checks_in_order_witness :
    ((⟨{ curr_region := ⟨0, 0, 100, 50⟩, alive_bitmap := [], liveness := 0,
         queue := [], queueCap := 4, global := ⟨[], 0, 0, 1⟩,
         hasOverflown := false, hasAborted := false, wordsScanned := 0,
         wordsScannedLimit := 0, realWordsScannedLimit := 0, refsReached := 0,
         refsReachedLimit := 0, realRefsReachedLimit := 0 },
       false, false, (10 : Int)⟩ : ClockState).task.hasAborted = false) ∧
    (regular_clock_call ⟨false, true, false, false, 5, true⟩
      ⟨{ curr_region := ⟨0, 0, 100, 50⟩, alive_bitmap := [], liveness := 0,
         queue := [], queueCap := 4, global := ⟨[], 0, 0, 1⟩,
         hasOverflown := false, hasAborted := false, wordsScanned := 0,
         wordsScannedLimit := 0, realWordsScannedLimit := 0, refsReached := 0,
         refsReachedLimit := 0, realRefsReachedLimit := 0 },
       false, false, (10 : Int)⟩).1 = false :=
  ⟨rfl,
    (regular_clock_call_checks_in_order ⟨false, true, false, false, 5, true⟩
      ⟨{ curr_region := ⟨0, 0, 100, 50⟩, alive_bitmap := [], liveness := 0,
         queue := [], queueCap := 4, global := ⟨[], 0, 0, 1⟩,
         hasOverflown := false, hasAborted := false, wordsScanned := 0,
         wordsScannedLimit := 0, realWordsScannedLimit := 0, refsReached := 0,
         refsReachedLimit := 0, realRefsReachedLimit := 0 },
       false, false, (10 : Int)⟩ rfl).2.2.2.2.2.2.1
      rfl rfl rfl rfl (by decide) rfl rfl⟩

theorem drainLoop_total_completes_empty (H : Heap) (st' : MarkState)
    (hab : st'.hasAborted = false) :
    ∀ (fuel : Nat) (st : MarkState),
      drainLoop H 0 st fuel = some st' → st'.queue = [] := by
  intro fuel
  induction fuel with
  | zero => intro st h; simp [drainLoop] at h
  | succ k ih =>
    intro st h
    rw [drainLoop] at h
    cases hq : st.queue with
    | nil =>
      simp only [pop_local, hq] at h
      cases h
      exact hq
    | cons e rest =>
      simp only [pop_local, hq] at h
      cases hscan : scan_task_entry H { st with queue := rest } e with
      | none => simp only [hscan] at h; cases h
      | some st2 =>
        simp only [hscan] at h
        by_cases hc : st2.queue.length ≤ 0 ∨ st2.hasAborted = true
        · rw [if_pos hc] at h
          cases h
          rcases hc with hc | hc
          · exact List.length_eq_zero.mp (Nat.le_zero.mp hc)
          · simp_all
        · rw [if_neg hc] at h
          exact ih st2 h

/-- C9: whenever the driver's total drain of the local queue
(`drain_local_queue(false)`, called immediately before
`drain_global_stack(false)` at cpp 3596-3597) completes, the entry
condition of the total `drain_global_stack` holds: either the task
aborted (and the function returns before the assertion) or the local task
queue is empty, so the assertion
`partially || _semeru_task_queue->size() == 0` never fails. -/
theorem total_drain_local_then_global_assert_holds
    (H : Heap) (st st' : MarkState) (fuel : Nat)
    (h : drain_local_queue H false st fuel = some st') :
    drain_global_entry_assert false st' := by
  unfold drain_local_queue at h
  by_cases hab : st.hasAborted = true
  · rw [if_pos hab] at h
    cases h
    exact Or.inl hab
  · rw [if_neg hab] at h
    simp only [Bool.false_eq_true, if_false] at h
    by_cases hq : 0 < st.queue.length
    · rw [if_pos hq] at h
      by_cases hab' : st'.hasAborted = true
      · exact Or.inl hab'
      · refine Or.inr (Or.inr ?_)
        have hempty := drainLoop_total_completes_empty H st'
          (Bool.not_eq_true _ ▸ hab') fuel st h
        simp [hempty]
    · rw [if_neg hq] at h
      cases h
      simp only [Nat.not_lt, Nat.le_zero] at hq
      exact Or.inr (Or.inr hq)

/-- A heap in which every address holds a fieldless two-word object. -/
def flatHeap : Heap := fun a =>
  { addr := a, size := 2, typeArray := false, sliced := false, fields := [] }

/-- A quiescent task state: empty local queue, nothing aborted. -/
def idleTask : MarkState :=
  { curr_region := ⟨0, 0, 100, 50⟩, alive_bitmap := [], liveness := 0,
    queue := [], queueCap := 4, global := ⟨[], 0, 0, 1⟩,
    hasOverflown := false, hasAborted := false, wordsScanned := 0,
    wordsScannedLimit := 0, realWordsScannedLimit := 0, refsReached := 0,
    refsReachedLimit := 0, realRefsReachedLimit := 0 }

/-- Witness for C9: the total local drain of the quiescent state completes
at once and the global-drain entry condition holds there. -/
theorem total_drain_local_then_global_assert_holds_witness :
    drain_local_queue flatHeap false idleTask 1 = some idleTask ∧
    drain_global_entry_assert false idleTask :=
  ⟨by decide,
   total_drain_local_then_global_assert_holds flatHeap idleTask idleTask 1 (by decide)⟩

theorem move_entries_queue_eq (st : MarkState) :
    (move_entries_to_global_stack st).queue =
      st.queue.drop (min EntriesPerChunk st.queue.length) := by
  simp only [move_entries_to_global_stack, decrease_limits]
  split_ifs <;> rfl

theorem move_entries_flags_eq (st : MarkState)
    (hn : 0 < min EntriesPerChunk st.queue.length) :
    (move_entries_to_global_stack st).global =
      (par_push_chunk st.global (moveBuffer st.queue)).2 ∧
    (move_entries_to_global_stack st).hasAborted =
      (if (par_push_chunk st.global (moveBuffer st.queue)).1 then st.hasAborted
       else true) ∧
    (move_entries_to_global_stack st).hasOverflown =
      (if (par_push_chunk st.global (moveBuffer st.queue)).1 then st.hasOverflown
       else true) := by
  simp only [move_entries_to_global_stack, decrease_limits]
  rw [if_pos hn]
  rcases hpp : par_push_chunk st.global (moveBuffer st.queue) with ⟨ok, g'⟩
  cases ok <;> simp

theorem par_push_chunk_success_chunkList (g : GlobalStack) (buf : List GEntry)
    (h : (par_push_chunk g buf).1 = true) :
    (par_push_chunk g buf).2.chunkList = buf :: g.chunkList := by
  unfold par_push_chunk at h ⊢
  split_ifs at h ⊢ <;> simp_all

/-- C5: whenever `push` finds the local deque full, the
`move_entries_to_global_stack` fallback pops `min(EntriesPerChunk, size)`
entries, so the retried push always finds room and the
`assert(success, "invariant")` on the retry never fails — given a deque
of positive capacity whose size never exceeds that capacity. -/
theorem push_full_deque_retry_succeeds (st : MarkState) (e : GEntry)
    (hcap : 1 ≤ st.queueCap) (hinv : st.queue.length ≤ st.queueCap) :
    ∃ st', push st e = some st' := by
  by_cases hfull : st.queue.length < st.queueCap
  · have h1 : queue_push st e = some { st with queue := e :: st.queue } := by
      simp [queue_push, hfull]
    exact ⟨_, by unfold push; rw [h1]⟩
  · have hlen : st.queue.length = st.queueCap := by omega
    have hE : 1 ≤ EntriesPerChunk := by decide
    have hmoved : (move_entries_to_global_stack st).queue.length < st.queueCap := by
      rw [move_entries_queue_eq]
      simp only [List.length_drop]
      omega
    have h1 : queue_push st e = none := by
      simp [queue_push, hfull]
    have hcap2 : (move_entries_to_global_stack st).queueCap = st.queueCap := by
      simp only [move_entries_to_global_stack, decrease_limits]
      split_ifs <;> rfl
    have h2 : queue_push (move_entries_to_global_stack st) e =
        some { move_entries_to_global_stack st with
                queue := e :: (move_entries_to_global_stack st).queue } := by
      simp [queue_push, hcap2, hmoved]
    exact ⟨_, by unfold push; rw [h1, h2]⟩

/-- A task state whose local deque is at capacity. -/
def fullDequeTask : MarkState :=
  { curr_region := ⟨0, 0, 100, 50⟩, alive_bitmap := [], liveness := 0,
    queue := [GEntry.oopE 1, GEntry.oopE 2], queueCap := 2,
    global := ⟨[], 0, 0, 4⟩, hasOverflown := false, hasAborted := false,
    wordsScanned := 0, wordsScannedLimit := 0, realWordsScannedLimit := 0,
    refsReached := 0, refsReachedLimit := 0, realRefsReachedLimit := 0 }

/-- Witness for C5: a full two-slot deque accepts a push after the
fallback move. -/
theorem push_full_deque_retry_succeeds_witness :
    1 ≤ fullDequeTask.queueCap ∧
    fullDequeTask.queue.length ≤ fullDequeTask.queueCap ∧
    ∃ st', push fullDequeTask (GEntry.oopE 9) = some st' :=
  ⟨by decide, by decide,
   push_full_deque_retry_succeeds fullDequeTask (GEntry.oopE 9) (by decide) (by decide)⟩

theorem replicate_nullE_getElem? (k i : Nat) (h : i < k) :
    (List.replicate k GEntry.nullE)[i]? = some GEntry.nullE := by
  rw [List.getElem?_eq_getElem (by simpa using h)]
  simp

/-- C7: when the local deque overflows, `move_entries_to_global_stack`
pops `n = min(EntriesPerChunk, size)` entries — up to `EntriesPerChunk`
of them — from the local deque into a stack-allocated batch of exactly
`EntriesPerChunk` slots whose leading `n` slots hold the popped entries
and whose unused slots all hold the default (zero / null) entry, and
pushes the batch onto the overflow stack with `push_chunk`, aborting the
task (and raising the overflow flag) when the push fails. -/
theorem move_entries_pops_zero_fills_and_pushes (st : MarkState)
    (hne : st.queue ≠ []) :
    (move_entries_to_global_stack st).queue =
      st.queue.drop (min EntriesPerChunk st.queue.length) ∧
    (moveBuffer st.queue).length = EntriesPerChunk ∧
    (moveBuffer st.queue).take (min EntriesPerChunk st.queue.length) =
      st.queue.take (min EntriesPerChunk st.queue.length) ∧
    (∀ i, min EntriesPerChunk st.queue.length ≤ i → i < EntriesPerChunk →
      (moveBuffer st.queue)[i]? = some GEntry.nullE) ∧
    ((par_push_chunk st.global (moveBuffer st.queue)).1 = true →
      (move_entries_to_global_stack st).global.chunkList =
        moveBuffer st.queue :: st.global.chunkList ∧
      (move_entries_to_global_stack st).hasAborted = st.hasAborted) ∧
    ((par_push_chunk st.global (moveBuffer st.queue)).1 = false →
      (move_entries_to_global_stack st).hasAborted = true ∧
      (move_entries_to_global_stack st).hasOverflown = true) := by
  have hn : 0 < min EntriesPerChunk st.queue.length := by
    have h1 : 0 < st.queue.length := List.length_pos.mpr hne
    have h2 : 1 ≤ EntriesPerChunk := by decide
    omega
  have htakelen : (st.queue.take (min EntriesPerChunk st.queue.length)).length =
      min EntriesPerChunk st.queue.length := by
    simp [List.length_take]
  refine ⟨move_entries_queue_eq st, ?_, ?_, ?_, ?_, ?_⟩
  · unfold moveBuffer
    simp only [List.length_append, List.length_replicate, htakelen]
    omega
  · unfold moveBuffer
    exact List.take_left' htakelen
  · intro i h1 h2
    unfold moveBuffer
    rw [List.getElem?_append_right (le_trans (le_of_eq htakelen) h1), htakelen]
    exact replicate_nullE_getElem? _ _ (by omega)
  · intro hp
    obtain ⟨hg, hab, _⟩ := move_entries_flags_eq st hn
    refine ⟨?_, ?_⟩
    · rw [hg, par_push_chunk_success_chunkList st.global (moveBuffer st.queue) hp]
    · rw [hab, if_pos hp]
  · intro hp
    obtain ⟨_, hab, hov⟩ := move_entries_flags_eq st hn
    have hp' : (par_push_chunk st.global (moveBuffer st.queue)).1 ≠ true := by
      simp [hp]
    exact ⟨by rw [hab, if_neg hp'], by rw [hov, if_neg hp']⟩

/-- Witness for C7, at a two-entry deque: the deque empties, the batch
keeps its fixed size, the popped entries fill the leading slots, every
unused slot holds the null entry, and the successful push prepends the
batch to the chunk list without aborting. -/
theorem move_entries_pops_zero_fills_and_pushes_witness :
    (fullDequeTask.queue ≠ []) ∧
    ((move_entries_to_global_stack fullDequeTask).queue =
      fullDequeTask.queue.drop (min EntriesPerChunk fullDequeTask.queue.length) ∧
    (moveBuffer fullDequeTask.queue).length = EntriesPerChunk ∧
    (moveBuffer fullDequeTask.queue).take
        (min EntriesPerChunk fullDequeTask.queue.length) =
      fullDequeTask.queue.take (min EntriesPerChunk fullDequeTask.queue.length) ∧
    (∀ i, min EntriesPerChunk fullDequeTask.queue.length ≤ i →
      i < EntriesPerChunk →
      (moveBuffer fullDequeTask.queue)[i]? = some GEntry.nullE) ∧
    ((par_push_chunk fullDequeTask.global (moveBuffer fullDequeTask.queue)).1 = true →
      (move_entries_to_global_stack fullDequeTask).global.chunkList =
        moveBuffer fullDequeTask.queue :: fullDequeTask.global.chunkList ∧
      (move_entries_to_global_stack fullDequeTask).hasAborted =
        fullDequeTask.hasAborted) ∧
    ((par_push_chunk fullDequeTask.global (moveBuffer fullDequeTask.queue)).1 = false →
      (move_entries_to_global_stack fullDequeTask).hasAborted = true ∧
      (move_entries_to_global_stack fullDequeTask).hasOverflown = true)) :=
  ⟨by decide, move_entries_pops_zero_fills_and_pushes fullDequeTask (by decide)⟩

theorem queue_push_preserves_mark_fields (st : MarkState) (e : GEntry)
    (st' : MarkState) (h : queue_push st e = some st') :
    st'.liveness = st.liveness ∧ st'.alive_bitmap = st.alive_bitmap := by
  unfold queue_push at h
  split_ifs at h
  cases h
  exact ⟨rfl, rfl⟩

theorem push_preserves_mark_fields (st : MarkState) (e : GEntry) (st' : MarkState)
    (h : push st e = some st') :
    st'.liveness = st.liveness ∧ st'.alive_bitmap = st.alive_bitmap := by
  have hmv : (move_entries_to_global_stack st).liveness = st.liveness ∧
      (move_entries_to_global_stack st).alive_bitmap = st.alive_bitmap := by
    simp only [move_entries_to_global_stack, decrease_limits]
    split_ifs <;> exact ⟨rfl, rfl⟩
  unfold push at h
  cases h1 : queue_push st e with
  | some st1 =>
    rw [h1] at h
    cases h
    exact queue_push_preserves_mark_fields st e _ h1
  | none =>
    rw [h1] at h
    cases h2 : queue_push (move_entries_to_global_stack st) e with
    | none => rw [h2] at h; cases h
    | some st2 =>
      rw [h2] at h
      cases h
      obtain ⟨ha, hb⟩ := queue_push_preserves_mark_fields _ e _ h2
      exact ⟨ha.trans hmv.1, hb.trans hmv.2⟩

/-- C1: a referent reaching `mark_in_alive_bitmap` through
`deal_with_reference` and `make_reference_alive` is never marked when its
address is at or above the current region's NTAMS — the call returns false
with the whole state (bitmap included) untouched; `par_mark` succeeds
exactly on a below-NTAMS object whose bit is still clear, and the object's
size is added to the per-worker liveness statistics exactly on that
flip — a referent whose bit was already set yields no increment, and a
repeated mark of the same object never adds its size again. -/
theorem mark_in_alive_bitmap_ntams_and_liveness
    (st : MarkState) (o : Obj) (H : Heap) (a : Nat) :
    (st.curr_region.ntams ≤ o.addr → mark_in_alive_bitmap st o = (false, st)) ∧
    ((mark_in_alive_bitmap st o).1 = true ↔
      o.addr < st.curr_region.ntams ∧ o.addr ∉ st.alive_bitmap) ∧
    ((mark_in_alive_bitmap st o).2.liveness =
      st.liveness + (if (mark_in_alive_bitmap st o).1 then o.size else 0)) ∧
    ((mark_in_alive_bitmap st o).1 = false →
      (mark_in_alive_bitmap st o).2.liveness = st.liveness ∧
      (mark_in_alive_bitmap st o).2.alive_bitmap = st.alive_bitmap) ∧
    ((mark_in_alive_bitmap (mark_in_alive_bitmap st o).2 o).2.liveness =
      (mark_in_alive_bitmap st o).2.liveness) ∧
    (∀ b st', make_reference_alive st o = some (b, st') →
      st'.liveness = (mark_in_alive_bitmap st o).2.liveness ∧
      st'.alive_bitmap = (mark_in_alive_bitmap st o).2.alive_bitmap ∧
      b = (mark_in_alive_bitmap st o).1) ∧
    (is_in_reserved st.curr_region a = true →
      deal_with_reference H st (some a) = make_reference_alive st (H a)) := by
  have hmark : ∀ s : MarkState,
      mark_in_alive_bitmap s o =
        if s.curr_region.ntams ≤ o.addr then (false, s)
        else if o.addr ∈ s.alive_bitmap then
          (false, { s with alive_bitmap := s.alive_bitmap })
        else
          (true, { s with alive_bitmap := o.addr :: s.alive_bitmap,
                          liveness := s.liveness + o.size }) := by
    intro s
    unfold mark_in_alive_bitmap obj_allocated_since_next_marking par_mark
    by_cases hA : s.curr_region.ntams ≤ o.addr
    · simp [hA]
    · by_cases hB : o.addr ∈ s.alive_bitmap <;> simp [hA, hB]
  have hmra_pres : ∀ b st', make_reference_alive st o = some (b, st') →
      st'.liveness = (mark_in_alive_bitmap st o).2.liveness ∧
      st'.alive_bitmap = (mark_in_alive_bitmap st o).2.alive_bitmap ∧
      b = (mark_in_alive_bitmap st o).1 := by
    intro b st' hmra
    unfold make_reference_alive at hmra
    by_cases hb : (mark_in_alive_bitmap st o).1 = false
    · rw [if_pos hb] at hmra
      cases hmra
      exact ⟨rfl, rfl, hb.symm⟩
    · rw [if_neg hb] at hmra
      simp only [Bool.not_eq_false] at hb
      by_cases hta : o.typeArray
      · rw [if_pos hta] at hmra
        cases hmra
        exact ⟨rfl, rfl, hb.symm⟩
      · rw [if_neg hta] at hmra
        cases hpush : push (mark_in_alive_bitmap st o).2 (GEntry.oopE o.addr) with
        | none => rw [hpush] at hmra; cases hmra
        | some stp =>
          rw [hpush] at hmra
          cases hmra
          obtain ⟨hl, hbm⟩ := push_preserves_mark_fields _ _ _ hpush
          exact ⟨hl, hbm, hb.symm⟩
  have hdwr : is_in_reserved st.curr_region a = true →
      deal_with_reference H st (some a) = make_reference_alive st (H a) := by
    intro hres
    simp [deal_with_reference, hres]
  by_cases h1 : st.curr_region.ntams ≤ o.addr
  · have hm : mark_in_alive_bitmap st o = (false, st) := by rw [hmark]; simp [h1]
    refine ⟨fun _ => hm, ?_, ?_, ?_, ?_, hmra_pres, hdwr⟩
    · rw [hm]; simp; omega
    · rw [hm]; simp
    · rw [hm]; simp
    · rw [hm, hm]
  · by_cases h2 : o.addr ∈ st.alive_bitmap
    · have hm : mark_in_alive_bitmap st o =
          (false, { st with alive_bitmap := st.alive_bitmap }) := by
        rw [hmark]; simp [h1, h2]
      refine ⟨fun hh => absurd hh h1, ?_, ?_, ?_, ?_, hmra_pres, hdwr⟩
      · rw [hm]; simp [h2]
      · rw [hm]; simp
      · rw [hm]; simp
      · rw [hm, hmark]; simp [h1, h2]
    · have hm : mark_in_alive_bitmap st o =
          (true, { st with alive_bitmap := o.addr :: st.alive_bitmap,
                           liveness := st.liveness + o.size }) := by
        rw [hmark]; simp [h1, h2]
      refine ⟨fun hh => absurd hh h1, ?_, ?_, ?_, ?_, hmra_pres, hdwr⟩
      · rw [hm]; simp [h2]; omega
      · rw [hm]; simp
      · rw [hm]; simp
      · rw [hm, hmark]; simp [h1, h2]

/-- A two-object heap for the C1 witness: address 5 holds a fresh plain
object inside the region, everything else is a fieldless filler. -/
def markDemoHeap : Heap := fun a =>
  { addr := a, size := 3, typeArray := false, sliced := false, fields := [] }

/-- Witness for C1: in a region with NTAMS 50, an object at address 60 is
refused with the state untouched; a fresh object at address 5 is marked
(its bit flips and its size is counted); marking it again adds nothing;
and `deal_with_reference` routes an in-region referent through
`make_reference_alive`. -/
theorem mark_in_alive_bitmap_ntams_and_liveness_witness :
    (idleTask.curr_region.ntams ≤ (markDemoHeap 60).addr ∧
      mark_in_alive_bitmap idleTask (markDemoHeap 60) = (false, idleTask)) ∧
    (mark_in_alive_bitmap idleTask (markDemoHeap 5)).1 = true ∧
    ((mark_in_alive_bitmap
        (mark_in_alive_bitmap idleTask (markDemoHeap 5)).2 (markDemoHeap 5)).2.liveness =
      (mark_in_alive_bitmap idleTask (markDemoHeap 5)).2.liveness) ∧
    (is_in_reserved idleTask.curr_region 5 = true ∧
      deal_with_reference markDemoHeap idleTask (some 5) =
        make_reference_alive idleTask (markDemoHeap 5)) :=
  ⟨⟨by decide,
    (mark_in_alive_bitmap_ntams_and_liveness idleTask (markDemoHeap 60)
      markDemoHeap 60).1 (by decide)⟩,
   (mark_in_alive_bitmap_ntams_and_liveness idleTask (markDemoHeap 5)
      markDemoHeap 5).2.1.mpr ⟨by decide, by decide⟩,
   (mark_in_alive_bitmap_ntams_and_liveness idleTask (markDemoHeap 5)
      markDemoHeap 5).2.2.2.2.1,
   ⟨by decide,
    (mark_in_alive_bitmap_ntams_and_liveness idleTask (markDemoHeap 5)
      markDemoHeap 5).2.2.2.2.2.2 (by decide)⟩⟩

end Semeru
